import Mathlib

/-!
Verification of the THORName query layer of midgard
(`internal/timeseries`: `CheckTHORName`, `GetTHORName`,
`GetTHORNamesByAddress`, `GetTHORNamesByOwnerAddress`).

The event log (`thorname_change_events`) is modelled as a list of rows;
the current chain height (Go: `LastBlock()`) is a field of the data-source
state.  Each Go function issues fixed SQL queries through `db.Query`; a
query either fails with a data-source error or returns rows.  We model
failure injection per query site (keyed by the query's parameter), so that
error-propagation behaviour can be stated; all row-returning semantics are
translated from the SQL text:

  - `CheckTHORName`:
      SELECT expire, owner FROM thorname_change_events
      WHERE expire > $1 AND name = $2
      ORDER BY block_timestamp DESC LIMIT 1
    (note: no chain filter appears in the query);
  - `GetTHORName` (entries query):
      SELECT DISTINCT on (chain) chain, address FROM thorname_change_events
      WHERE name = $1 ORDER BY chain, block_timestamp DESC;
  - `GetTHORNamesByAddress` (candidates):
      SELECT DISTINCT on (name) name FROM thorname_change_events
      WHERE address = $1;
  - `GetTHORNamesByOwnerAddress` (candidates):
      SELECT DISTINCT on (name) name FROM thorname_change_events
      WHERE owner = $1.

SQL leaves the choice among rows with equal `block_timestamp` unspecified;
the embedding makes the deterministic choice of the earliest such row in
log order (`pickLatest`).  Heights and timestamps are `int64` in the DB
schema, embedded as `Int` (only compared, never overflowed).
-/

deriving instance DecidableEq for Except

namespace Midgard

/-- A row of the `thorname_change_events` table. -/
structure ChangeEvent where
  name : String
  chain : String
  address : String
  owner : String
  expire : Int
  blockTimestamp : Int
deriving DecidableEq, Repr

/-- Go `timeseries.THORNameEntry`. -/
structure THORNameEntry where
  chain : String
  address : String
deriving DecidableEq, Repr

/-- Go `timeseries.THORName`; the zero value has empty owner, zero expire,
nil entries. -/
structure THORName where
  owner : String := ""
  expire : Int := 0
  entries : List THORNameEntry := []
deriving DecidableEq, Repr

/-- The data-source state: the immutable event log, the current indexed
height (Go `LastBlock()`), and error injection for each query site (a
`some e` means the corresponding `db.Query` call fails with error `e`). -/
structure DB where
  events : List ChangeEvent
  lastBlockHeight : Int
  checkErr : String → Option Nat
  entriesErr : String → Option Nat
  byAddressErr : String → Option Nat
  byOwnerErr : String → Option Nat

/-- First row of an `ORDER BY block_timestamp DESC LIMIT 1` result:
the event with maximal `blockTimestamp`; among equal timestamps the
earliest row in log order is chosen (deterministic tie-break). -/
def pickLatest : List ChangeEvent → Option ChangeEvent
  | [] => none
  | e :: es =>
    match pickLatest es with
    | none => some e
    | some b => if e.blockTimestamp < b.blockTimestamp then some b else some e

/-- Rows matching `WHERE expire > $1 AND name = $2` with `$1` the current
height (the query of `CheckTHORName`; it has no chain condition). -/
def liveNameEvents (db : DB) (name : String) : List ChangeEvent :=
  db.events.filter (fun ev => db.lastBlockHeight < ev.expire && ev.name == name)

/-- Go `timeseries.CheckTHORName`: resolves a name's owner and expire from
the single most recent not-yet-expired event; the zero value is returned
when no row matches. -/
def checkTHORName (db : DB) (name : String) : Except Nat THORName :=
  match db.checkErr name with
  | some e => .error e
  | none =>
    match pickLatest (liveNameEvents db name) with
    | none => .ok {}
    | some ev => .ok { owner := ev.owner, expire := ev.expire }

/-- Rows matching `WHERE name = $1`. -/
def nameEvents (events : List ChangeEvent) (name : String) : List ChangeEvent :=
  events.filter (fun ev => ev.name == name)

/-- Lexicographic strict order on character lists (the order SQL's
`ORDER BY` applies to the `chain` text column), as a computable Bool. -/
def charsLt : List Char → List Char → Bool
  | [], [] => false
  | [], _ :: _ => true
  | _ :: _, [] => false
  | a :: as, b :: bs => if a < b then true else if b < a then false else charsLt as bs

/-- Strict text order on chain identifiers. -/
def chainLt (a b : String) : Bool := charsLt a.data b.data

/-- Reflexive text order on chain identifiers. -/
def chainLe (a b : String) : Bool := ! chainLt b a

/-- The distinct chains appearing for a name, in the `ORDER BY chain`
order (ascending). -/
def chainsOf (events : List ChangeEvent) (name : String) : List String :=
  List.insertionSort (fun a b => chainLe a b = true)
    (((nameEvents events name).map (fun ev => ev.chain)).dedup)

/-- The `DISTINCT ON (chain)` representative for one chain: the address of
that chain's row with the latest `block_timestamp`. -/
def latestEntryFor (events : List ChangeEvent) (name chain : String) : THORNameEntry :=
  { chain := chain
    address :=
      ((pickLatest ((nameEvents events name).filter (fun ev => ev.chain == chain))).map
        (fun ev => ev.address)).getD "" }

/-- The result rows of `GetTHORName`'s entries query: one entry per chain
that ever recorded an event for the name, ordered by chain. -/
def expandEntries (events : List ChangeEvent) (name : String) : List THORNameEntry :=
  (chainsOf events name).map (latestEntryFor events name)

/-- Go `timeseries.GetTHORName`: resolve the name, and only when an owner
was found, attach the per-chain entries. -/
def getTHORName (db : DB) (name : String) : Except Nat THORName :=
  match checkTHORName db name with
  | .error e => .error e
  | .ok tName =>
    if tName.owner == "" then .ok tName
    else
      match db.entriesErr name with
      | some e => .error e
      | none => .ok { tName with entries := expandEntries db.events name }

/-- Candidates: `SELECT DISTINCT on (name) name ... WHERE address = $1`. -/
def candidatesByAddress (events : List ChangeEvent) (addr : String) : List String :=
  ((events.filter (fun ev => ev.address == addr)).map (fun ev => ev.name)).dedup

/-- Go `timeseries.GetTHORNamesByAddress`: enumerate candidate names, keep
a candidate when its re-resolution succeeds and still lists the queried
address; a candidate whose `GetTHORName` fails is skipped (`continue`). -/
def getTHORNamesByAddress (db : DB) (addr : String) : Except Nat (List String) :=
  match db.byAddressErr addr with
  | some e => .error e
  | none =>
    .ok ((candidatesByAddress db.events addr).filter (fun n =>
      match getTHORName db n with
      | .error _ => false
      | .ok t => t.entries.any (fun en => en.address == addr)))

/-- Candidates: `SELECT DISTINCT on (name) name ... WHERE owner = $1`. -/
def candidatesByOwner (events : List ChangeEvent) (addr : String) : List String :=
  ((events.filter (fun ev => ev.owner == addr)).map (fun ev => ev.name)).dedup

/-- Go `timeseries.GetTHORNamesByOwnerAddress`: enumerate candidate names,
re-resolve each via `CheckTHORName` (a failed resolution with zero owner is
skipped), and keep the candidate when the resolved owner equals the queried
address. -/
def getTHORNamesByOwnerAddress (db : DB) (addr : String) : Except Nat (List String) :=
  match db.byOwnerErr addr with
  | some e => .error e
  | none =>
    .ok ((candidatesByOwner db.events addr).filter (fun n =>
      match checkTHORName db n with
      | .error _ => false
      | .ok t => t.owner == addr))

/-- Error-injection map that never fires. -/
def noErr : String → Option Nat := fun _ => none

/-- The spec's worked scenario (section 8): alice registered on THOR and
ETH, expire 1000, current height 500. -/
def scenarioDB : DB :=
  { events :=
      [ { name := "alice", chain := "THOR", address := "thor1x", owner := "thor1x",
          expire := 1000, blockTimestamp := 1 }
      , { name := "alice", chain := "ETH", address := "0xAB", owner := "thor1x",
          expire := 1000, blockTimestamp := 2 } ]
    lastBlockHeight := 500
    checkErr := noErr, entriesErr := noErr, byAddressErr := noErr, byOwnerErr := noErr }

example : checkTHORName scenarioDB "alice" = .ok { owner := "thor1x", expire := 1000 } := by decide

example :
    getTHORName scenarioDB "alice" =
      .ok { owner := "thor1x", expire := 1000,
            entries := [⟨"ETH", "0xAB"⟩, ⟨"THOR", "thor1x"⟩] } := by decide

example : getTHORNamesByAddress scenarioDB "0xAB" = .ok ["alice"] := by decide

example : getTHORNamesByOwnerAddress scenarioDB "thor1x" = .ok ["alice"] := by decide

/-! ### Helper lemmas about `pickLatest` -/

theorem pickLatest_ne_none {l : List ChangeEvent} (h : l ≠ []) :
    ∃ e, pickLatest l = some e := by
  cases l with
  | nil => exact absurd rfl h
  | cons a as =>
    cases hp : pickLatest as with
    | none => exact ⟨a, by simp [pickLatest, hp]⟩
    | some b =>
      by_cases hc : a.blockTimestamp < b.blockTimestamp
      · exact ⟨b, by simp [pickLatest, hp, hc]⟩
      · exact ⟨a, by simp [pickLatest, hp, hc]⟩

theorem pickLatest_mem : ∀ {l : List ChangeEvent} {e}, pickLatest l = some e → e ∈ l := by
  intro l
  induction l with
  | nil => intro e h; exact Option.noConfusion h
  | cons a as ih =>
    intro e h
    cases hp : pickLatest as with
    | none =>
      simp only [pickLatest, hp] at h
      injection h with h
      exact h ▸ List.mem_cons_self a as
    | some b =>
      simp only [pickLatest, hp] at h
      by_cases hc : a.blockTimestamp < b.blockTimestamp
      · rw [if_pos hc] at h
        injection h with h
        exact h ▸ List.mem_cons_of_mem a (ih hp)
      · rw [if_neg hc] at h
        injection h with h
        exact h ▸ List.mem_cons_self a as

theorem pickLatest_le : ∀ {l : List ChangeEvent} {e}, pickLatest l = some e →
    ∀ x ∈ l, x.blockTimestamp ≤ e.blockTimestamp := by
  intro l
  induction l with
  | nil => intro e _ x hx; exact absurd hx (List.not_mem_nil x)
  | cons a as ih =>
    intro e h x hx
    cases hp : pickLatest as with
    | none =>
      have has : as = [] := by
        cases as with
        | nil => rfl
        | cons b bs =>
          exfalso
          cases hq : pickLatest bs with
          | none => simp [pickLatest, hq] at hp
          | some c =>
            simp only [pickLatest, hq] at hp
            split at hp <;> exact Option.noConfusion hp
      simp only [pickLatest, hp] at h
      injection h with h
      subst has
      rcases List.mem_singleton.mp hx with rfl
      exact le_of_eq (congrArg ChangeEvent.blockTimestamp h)
    | some b =>
      simp only [pickLatest, hp] at h
      have hble := ih hp
      by_cases hc : a.blockTimestamp < b.blockTimestamp
      · rw [if_pos hc] at h
        injection h with h
        subst h
        rcases List.mem_cons.mp hx with rfl | hx'
        · exact le_of_lt hc
        · exact hble x hx'
      · rw [if_neg hc] at h
        injection h with h
        subst h
        rcases List.mem_cons.mp hx with rfl | hx'
        · exact le_refl _
        · exact le_trans (hble x hx') (not_lt.mp hc)

/-! ### Helper lemmas about the chain text order -/

theorem charsLt_asymm : ∀ {as bs : List Char}, charsLt as bs = true → charsLt bs as = false := by
  intro as
  induction as with
  | nil =>
    intro bs h
    cases bs with
    | nil => exact absurd h (by simp [charsLt])
    | cons b bs => simp [charsLt]
  | cons a as ih =>
    intro bs h
    cases bs with
    | nil => exact absurd h (by simp [charsLt])
    | cons b bs =>
      simp only [charsLt] at h ⊢
      by_cases h1 : a < b
      · rw [if_neg (lt_asymm h1), if_pos h1]
      · rw [if_neg h1] at h
        by_cases h2 : b < a
        · rw [if_pos h2] at h; exact absurd h (by simp)
        · rw [if_neg h2] at h
          rw [if_neg h2, if_neg h1]
          exact ih h

theorem charsLt_trans : ∀ {as bs cs : List Char},
    charsLt as bs = true → charsLt bs cs = true → charsLt as cs = true := by
  intro as
  induction as with
  | nil =>
    intro bs cs h1 h2
    cases bs with
    | nil => exact absurd h1 (by simp [charsLt])
    | cons b bs =>
      cases cs with
      | nil => exact absurd h2 (by simp [charsLt])
      | cons c cs => simp [charsLt]
  | cons a as ih =>
    intro bs cs h1 h2
    cases bs with
    | nil => exact absurd h1 (by simp [charsLt])
    | cons b bs =>
      cases cs with
      | nil => exact absurd h2 (by simp [charsLt])
      | cons c cs =>
        simp only [charsLt] at h1 h2 ⊢
        by_cases hab : a < b
        · rw [if_pos hab] at h1
          by_cases hbc : b < c
          · rw [if_pos (lt_trans hab hbc)]
          · rw [if_neg hbc] at h2
            by_cases hcb : c < b
            · rw [if_pos hcb] at h2; exact absurd h2 (by simp)
            · have hbceq : b = c := le_antisymm (not_lt.mp hcb) (not_lt.mp hbc)
              rw [if_pos (hbceq ▸ hab)]
        · rw [if_neg hab] at h1
          by_cases hba : b < a
          · rw [if_pos hba] at h1; exact absurd h1 (by simp)
          · rw [if_neg hba] at h1
            have habeq : a = b := le_antisymm (not_lt.mp hba) (not_lt.mp hab)
            subst habeq
            by_cases hbc : a < c
            · rw [if_pos hbc]
            · rw [if_neg hbc] at h2 ⊢
              by_cases hcb : c < a
              · rw [if_pos hcb] at h2; exact absurd h2 (by simp)
              · rw [if_neg hcb] at h2 ⊢
                exact ih h1 h2

theorem charsLt_connex : ∀ {as bs : List Char},
    charsLt as bs = false → charsLt bs as = false → as = bs := by
  intro as
  induction as with
  | nil =>
    intro bs h1 _
    cases bs with
    | nil => rfl
    | cons b bs => exact absurd h1 (by simp [charsLt])
  | cons a as ih =>
    intro bs h1 h2
    cases bs with
    | nil => exact absurd h2 (by simp [charsLt])
    | cons b bs =>
      simp only [charsLt] at h1 h2
      by_cases hab : a < b
      · rw [if_pos hab] at h1; exact absurd h1 (by simp)
      · by_cases hba : b < a
        · rw [if_pos hba] at h2; exact absurd h2 (by simp)
        · rw [if_neg hab, if_neg hba] at h1
          rw [if_neg hba, if_neg hab] at h2
          have habeq : a = b := le_antisymm (not_lt.mp hba) (not_lt.mp hab)
          rw [habeq, ih h1 h2]

theorem charsLt_iff : ∀ (as bs : List Char), charsLt as bs = true ↔ as < bs := by
  intro as
  induction as with
  | nil =>
    intro bs
    cases bs with
    | nil =>
      constructor
      · intro h; exact absurd h (by simp [charsLt])
      · intro h; cases h
    | cons b bs =>
      constructor
      · intro _; exact List.Lex.nil
      · intro _; simp [charsLt]
  | cons a as ih =>
    intro bs
    cases bs with
    | nil =>
      constructor
      · intro h; exact absurd h (by simp [charsLt])
      · intro h; cases h
    | cons b bs =>
      simp only [charsLt]
      constructor
      · intro h
        by_cases hab : a < b
        · exact List.Lex.rel hab
        · rw [if_neg hab] at h
          by_cases hba : b < a
          · rw [if_pos hba] at h; exact absurd h (by simp)
          · rw [if_neg hba] at h
            have habeq : a = b := le_antisymm (not_lt.mp hba) (not_lt.mp hab)
            subst habeq
            exact List.Lex.cons ((ih bs).mp h)
      · intro h
        cases h with
        | cons htl =>
          rw [if_neg (lt_irrefl a), if_neg (lt_irrefl a)]
          exact (ih bs).mpr htl
        | rel hab => rw [if_pos hab]

theorem chainLt_iff_lt {a b : String} : chainLt a b = true ↔ a < b := by
  rw [String.lt_iff_toList_lt]
  exact charsLt_iff a.data b.data

instance : IsTotal String (fun a b => chainLe a b = true) := by
  constructor
  intro a b
  simp only [chainLe, chainLt, Bool.not_eq_true']
  cases h : charsLt b.data a.data with
  | false => exact Or.inl rfl
  | true => exact Or.inr (charsLt_asymm h)

instance : IsTrans String (fun a b => chainLe a b = true) := by
  constructor
  intro a b c hab hbc
  simp only [chainLe, chainLt, Bool.not_eq_true'] at hab hbc ⊢
  cases hh : charsLt c.data a.data with
  | false => rfl
  | true =>
    exfalso
    cases hbc' : charsLt b.data c.data with
    | true =>
      have := charsLt_trans hbc' hh
      rw [hab] at this
      exact Bool.noConfusion this
    | false =>
      have hbceq := charsLt_connex hbc' hbc
      rw [← hbceq] at hh
      rw [hab] at hh
      exact Bool.noConfusion hh

theorem chain_lt_of_le_ne {a b : String} (h : chainLe a b = true) (hne : a ≠ b) : a < b := by
  simp only [chainLe, chainLt, Bool.not_eq_true'] at h
  cases hab : charsLt a.data b.data with
  | true => exact chainLt_iff_lt.mp hab
  | false =>
    exfalso
    apply hne
    have hdata := charsLt_connex hab h
    cases a
    cases b
    exact congrArg String.mk hdata

/-! ### Characterization of the entries expansion -/

theorem mem_chainsOf {events : List ChangeEvent} {n c : String} :
    c ∈ chainsOf events n ↔ ∃ ev, ev ∈ events ∧ ev.name = n ∧ ev.chain = c := by
  unfold chainsOf
  rw [(List.perm_insertionSort _ _).mem_iff, List.mem_dedup, List.mem_map]
  constructor
  · rintro ⟨ev, hev, rfl⟩
    have hm := List.mem_filter.mp hev
    exact ⟨ev, hm.1, by simpa using hm.2, rfl⟩
  · rintro ⟨ev, hev, hn, rfl⟩
    exact ⟨ev, List.mem_filter.mpr ⟨hev, by simp [hn]⟩, rfl⟩

theorem nodup_chainsOf {events : List ChangeEvent} {n : String} :
    (chainsOf events n).Nodup :=
  (List.perm_insertionSort _ _).nodup_iff.mpr (List.nodup_dedup _)

theorem sorted_chainsOf {events : List ChangeEvent} {n : String} :
    List.Pairwise (fun a b => a < b) (chainsOf events n) := by
  have hs : List.Pairwise (fun a b => chainLe a b = true) (chainsOf events n) :=
    List.sorted_insertionSort _ _
  have hnd : List.Pairwise (fun a b : String => a ≠ b) (chainsOf events n) := nodup_chainsOf
  exact (List.Pairwise.and hs hnd).imp (fun h => chain_lt_of_le_ne h.1 h.2)

theorem expandEntries_map_chain {events : List ChangeEvent} {n : String} :
    (expandEntries events n).map (fun en => en.chain) = chainsOf events n := by
  unfold expandEntries
  rw [List.map_map]
  have hid : ((fun en : THORNameEntry => en.chain) ∘ latestEntryFor events n) = id :=
    funext fun c => rfl
  rw [hid, List.map_id]

theorem mem_expandEntries {events : List ChangeEvent} {n : String} {en : THORNameEntry}
    (h : en ∈ expandEntries events n) :
    ∃ ev, ev ∈ events ∧ ev.name = n ∧ ev.chain = en.chain ∧ ev.address = en.address ∧
      ∀ ev', ev' ∈ events → ev'.name = n → ev'.chain = en.chain →
        ev'.blockTimestamp ≤ ev.blockTimestamp := by
  unfold expandEntries at h
  rcases List.mem_map.mp h with ⟨c, hc, rfl⟩
  rcases mem_chainsOf.mp hc with ⟨ev0, hev0, hn0, hc0⟩
  have hne : (nameEvents events n).filter (fun ev => ev.chain == c) ≠ [] := by
    intro hnil
    have hm : ev0 ∈ (nameEvents events n).filter (fun ev => ev.chain == c) :=
      List.mem_filter.mpr ⟨List.mem_filter.mpr ⟨hev0, by simp [hn0]⟩, by simp [hc0]⟩
    rw [hnil] at hm
    exact absurd hm (List.not_mem_nil ev0)
  rcases pickLatest_ne_none hne with ⟨ev, hev⟩
  have hmem := List.mem_filter.mp (pickLatest_mem hev)
  have hmem1 := List.mem_filter.mp hmem.1
  refine ⟨ev, hmem1.1, by simpa using hmem1.2, by simpa using hmem.2, ?_, ?_⟩
  · show ev.address = (latestEntryFor events n c).address
    unfold latestEntryFor
    rw [hev]
    rfl
  · intro ev' hev' hn' hc'
    refine pickLatest_le hev ev' (List.mem_filter.mpr ⟨List.mem_filter.mpr ⟨hev', ?_⟩, ?_⟩)
    · simp [hn']
    · simpa using hc'

/-! ### Shape lemmas for the resolver and the combined lookup -/

theorem checkTHORName_entries_nil {db : DB} {n : String} {t : THORName}
    (h : checkTHORName db n = .ok t) : t.entries = [] := by
  unfold checkTHORName at h
  cases hc : db.checkErr n with
  | some e => rw [hc] at h; exact Except.noConfusion h
  | none =>
    rw [hc] at h
    cases hp : pickLatest (liveNameEvents db n) with
    | none =>
      rw [hp] at h
      injection h with h
      rw [← h]
    | some ev =>
      rw [hp] at h
      injection h with h
      rw [← h]

theorem getTHORName_entries_cases {db : DB} {n : String} {t : THORName}
    (h : getTHORName db n = .ok t) :
    (t.owner = "" ∧ t.entries = []) ∨
      (t.owner ≠ "" ∧ t.entries = expandEntries db.events n) := by
  cases hc : checkTHORName db n with
  | error e => simp [getTHORName, hc] at h
  | ok t0 =>
    simp only [getTHORName, hc] at h
    by_cases ho : t0.owner == ""
    · rw [if_pos ho] at h
      injection h with h
      subst h
      exact Or.inl ⟨by simpa using ho, checkTHORName_entries_nil hc⟩
    · rw [if_neg ho] at h
      cases he : db.entriesErr n with
      | some e => rw [he] at h; exact Except.noConfusion h
      | none =>
        rw [he] at h
        injection h with h
        subst h
        exact Or.inr ⟨by simpa using ho, rfl⟩

theorem checkTHORName_absent_of_expired (db : DB) (n : String)
    (h : db.checkErr n = none)
    (hexp : ∀ ev ∈ db.events, ev.name = n → ev.expire ≤ db.lastBlockHeight) :
    checkTHORName db n = .ok {} := by
  have hnil : liveNameEvents db n = [] := by
    rw [liveNameEvents, List.filter_eq_nil_iff]
    intro a ha
    simp only [Bool.and_eq_true, decide_eq_true_eq, beq_iff_eq, not_and]
    intro hlt hname
    exact absurd (hexp a ha hname) (not_le.mpr hlt)
  have hpick : pickLatest (liveNameEvents db n) = none := by rw [hnil]; rfl
  simp [checkTHORName, h, hpick]

/-! ### C1: which events the resolver selects from -/

/-- A log where alice's THOR record is expired at height 500 while an ETH
event is still unexpired. -/
def dbC1 : DB :=
  { events :=
      [ { name := "alice", chain := "THOR", address := "t1", owner := "a",
          expire := 100, blockTimestamp := 1 }
      , { name := "alice", chain := "ETH", address := "e1", owner := "b",
          expire := 1000, blockTimestamp := 2 } ]
    lastBlockHeight := 500
    checkErr := noErr, entriesErr := noErr, byAddressErr := noErr, byOwnerErr := noErr }

/-- C1, counterexample: every root-chain (THOR) event for alice is expired,
yet `CheckTHORName` does not return the absent result — its query has no
chain condition, so the still-unexpired ETH event is selected and its owner
returned. -/
theorem checkTHORName_rootOnly_cex :
    (∀ ev ∈ dbC1.events, ev.chain = "THOR" → ev.expire ≤ dbC1.lastBlockHeight) ∧
    checkTHORName dbC1 "alice" = .ok { owner := "b", expire := 1000 } ∧
    checkTHORName dbC1 "alice" ≠ .ok {} := by decide

/-- C1, amended: for every name and current height, `CheckTHORName` selects
among the events for that name on ANY chain whose `expire` is strictly
greater than the current height (the query does not restrict to the root
chain), picks one with the latest `block_timestamp`, and returns its owner
and expire; when no event of any chain is live it returns the absent
(zero-value) result. -/
theorem checkTHORName_selects_latest_live (db : DB) (n : String)
    (h : db.checkErr n = none) :
    (checkTHORName db n = .ok {} ∧
        ∀ ev ∈ db.events, ev.name = n → ev.expire ≤ db.lastBlockHeight) ∨
    (∃ ev, ev ∈ db.events ∧ ev.name = n ∧ db.lastBlockHeight < ev.expire ∧
        (∀ ev', ev' ∈ db.events → ev'.name = n → db.lastBlockHeight < ev'.expire →
          ev'.blockTimestamp ≤ ev.blockTimestamp) ∧
        checkTHORName db n = .ok { owner := ev.owner, expire := ev.expire }) := by
  cases hp : pickLatest (liveNameEvents db n) with
  | none =>
    left
    constructor
    · simp [checkTHORName, h, hp]
    · intro ev hev hname
      by_contra hgt
      have hmem : ev ∈ liveNameEvents db n :=
        List.mem_filter.mpr ⟨hev, by simp [hname]; exact not_le.mp hgt⟩
      have hne : liveNameEvents db n ≠ [] := by
        intro hnil
        rw [hnil] at hmem
        exact absurd hmem (List.not_mem_nil ev)
      rcases pickLatest_ne_none hne with ⟨e, he⟩
      rw [hp] at he
      exact Option.noConfusion he
  | some ev =>
    right
    have hmem' : ev ∈ db.events.filter
        (fun x => db.lastBlockHeight < x.expire && x.name == n) := pickLatest_mem hp
    have hsplit := List.mem_filter.mp hmem'
    have hprops : db.lastBlockHeight < ev.expire ∧ ev.name = n := by
      have hb := hsplit.2
      simp at hb
      exact hb
    refine ⟨ev, hsplit.1, hprops.2, hprops.1, ?_, ?_⟩
    · intro ev' hev' hn' hlt'
      exact pickLatest_le hp ev' (List.mem_filter.mpr ⟨hev', by simp [hn', hlt']⟩)
    · simp [checkTHORName, h, hp]

/-- C1, witness: the amended theorem applied to the concrete log `dbC1`. -/
theorem checkTHORName_selects_latest_live_witness :
    (checkTHORName dbC1 "alice" = .ok {} ∧
        ∀ ev ∈ dbC1.events, ev.name = "alice" → ev.expire ≤ dbC1.lastBlockHeight) ∨
    (∃ ev, ev ∈ dbC1.events ∧ ev.name = "alice" ∧ dbC1.lastBlockHeight < ev.expire ∧
        (∀ ev', ev' ∈ dbC1.events → ev'.name = "alice" →
          dbC1.lastBlockHeight < ev'.expire → ev'.blockTimestamp ≤ ev.blockTimestamp) ∧
        checkTHORName dbC1 "alice" = .ok { owner := ev.owner, expire := ev.expire }) :=
  checkTHORName_selects_latest_live dbC1 "alice" rfl

/-! ### C4: expired or unregistered names resolve to the absent value -/

/-- A log whose rows for name `n` are all expired at height 500. -/
def dbC4 : DB :=
  { events :=
      [ { name := "n", chain := "ETH", address := "X", owner := "O",
          expire := 100, blockTimestamp := 1 }
      , { name := "n", chain := "THOR", address := "Y", owner := "O",
          expire := 90, blockTimestamp := 2 } ]
    lastBlockHeight := 500
    checkErr := noErr, entriesErr := noErr, byAddressErr := noErr, byOwnerErr := noErr }

/-- C4: when no event for the name has `expire` greater than the current
height, `CheckTHORName` returns the zero-value result with no error, and
`GetTHORName` likewise returns the empty state with no per-chain entries,
even when stale per-chain rows for the name exist in the log. -/
theorem resolver_absent_on_expired (db : DB) (n : String)
    (h : db.checkErr n = none)
    (hexp : ∀ ev ∈ db.events, ev.name = n → ev.expire ≤ db.lastBlockHeight) :
    checkTHORName db n = .ok {} ∧ getTHORName db n = .ok {} := by
  have hcheck := checkTHORName_absent_of_expired db n h hexp
  exact ⟨hcheck, by simp [getTHORName, hcheck]⟩

/-- C4, witness: a concrete log with stale rows for the name, all expired. -/
theorem resolver_absent_on_expired_witness :
    checkTHORName dbC4 "n" = .ok {} ∧ getTHORName dbC4 "n" = .ok {} :=
  resolver_absent_on_expired dbC4 "n" rfl (by decide)

/-! ### C2: the by-address reverse lookup re-validates candidates -/

/-- A log where chain C of name n was bound to address A at timestamp 1 and
rebound to address B at timestamp 2. -/
def dbC2 : DB :=
  { events :=
      [ { name := "n", chain := "C", address := "A", owner := "own",
          expire := 1000, blockTimestamp := 1 }
      , { name := "n", chain := "C", address := "B", owner := "own",
          expire := 1000, blockTimestamp := 2 } ]
    lastBlockHeight := 500
    checkErr := noErr, entriesErr := noErr, byAddressErr := noErr, byOwnerErr := noErr }

/-- C2: `GetTHORNamesByAddress` includes a candidate name only if the
current entry expansion of that name (as returned by `GetTHORName`) still
contains an entry whose address equals the queried address; consequently on
the rebind log `dbC2` the query for the superseded address A returns the
empty set although rows containing A remain in the log. -/
theorem namesBoundTo_revalidates :
    (∀ (db : DB) (addr n : String) (ns : List String),
        getTHORNamesByAddress db addr = .ok ns → n ∈ ns →
        ∃ t, getTHORName db n = .ok t ∧ ∃ en, en ∈ t.entries ∧ en.address = addr) ∧
    (getTHORNamesByAddress dbC2 "A" = .ok [] ∧
      ∃ ev, ev ∈ dbC2.events ∧ ev.address = "A") := by
  constructor
  · intro db addr n ns hok hmem
    cases hb : db.byAddressErr addr with
    | some e => simp [getTHORNamesByAddress, hb] at hok
    | none =>
      simp only [getTHORNamesByAddress, hb] at hok
      injection hok with hok
      subst hok
      have hf := (List.mem_filter.mp hmem).2
      cases hg : getTHORName db n with
      | error e =>
        simp only [hg] at hf
        exact absurd hf (by simp)
      | ok t =>
        simp only [hg] at hf
        rcases List.any_eq_true.mp hf with ⟨en, hen, haddr⟩
        exact ⟨t, rfl, en, hen, by simpa using haddr⟩
  · exact ⟨by decide, by decide⟩

/-- C2, witness: on the rebind log, querying the current address B does
include the name, and the theorem recovers the matching live entry. -/
theorem namesBoundTo_revalidates_witness :
    ∃ t, getTHORName dbC2 "n" = .ok t ∧ ∃ en, en ∈ t.entries ∧ en.address = "B" :=
  namesBoundTo_revalidates.1 dbC2 "B" "n" ["n"] (by decide) (by decide)

/-! ### C3: the by-owner reverse lookup recomputes the owner -/

/-- A log where the THOR record of name n (owner A) is expired at height
500 while a later ETH event, also with owner A, is still unexpired. -/
def dbC3 : DB :=
  { events :=
      [ { name := "n", chain := "THOR", address := "x", owner := "A",
          expire := 100, blockTimestamp := 1 }
      , { name := "n", chain := "ETH", address := "y", owner := "A",
          expire := 1000, blockTimestamp := 2 } ]
    lastBlockHeight := 500
    checkErr := noErr, entriesErr := noErr, byAddressErr := noErr, byOwnerErr := noErr }

/-- C3, counterexample: every root-chain (THOR) event of name n is expired
at the current height, yet `GetTHORNamesByOwnerAddress` still includes n —
the resolver it delegates to has no chain filter, so the live ETH event
supplies owner A. -/
theorem namesOwnedBy_rootExpired_cex :
    (∀ ev ∈ dbC3.events, ev.chain = "THOR" → ev.expire ≤ dbC3.lastBlockHeight) ∧
    getTHORNamesByOwnerAddress dbC3 "A" = .ok ["n"] := by decide

/-- Owner of name n changes from A (timestamp 1) to B (timestamp 2), both
root-chain records live at height 500. -/
def dbC3b : DB :=
  { events :=
      [ { name := "n", chain := "THOR", address := "x", owner := "A",
          expire := 1000, blockTimestamp := 1 }
      , { name := "n", chain := "THOR", address := "x", owner := "B",
          expire := 1000, blockTimestamp := 2 } ]
    lastBlockHeight := 500
    checkErr := noErr, entriesErr := noErr, byAddressErr := noErr, byOwnerErr := noErr }

/-- C3, amended: `GetTHORNamesByOwnerAddress` includes a name only if the
owner recomputed by `CheckTHORName` (over the live events of ANY chain, not
only the root chain) equals the queried address exactly; a name with no
live event at all is excluded for every non-empty queried address; and on
the ownership-change log `dbC3b` the old owner A gets the empty set while
the new owner B gets the name. -/
theorem namesOwnedBy_owner_eq :
    (∀ (db : DB) (addr n : String) (ns : List String),
        getTHORNamesByOwnerAddress db addr = .ok ns → n ∈ ns →
        ∃ t, checkTHORName db n = .ok t ∧ t.owner = addr) ∧
    (∀ (db : DB) (addr n : String) (ns : List String), addr ≠ "" →
        (∀ ev ∈ db.events, ev.name = n → ev.expire ≤ db.lastBlockHeight) →
        getTHORNamesByOwnerAddress db addr = .ok ns → n ∉ ns) ∧
    (getTHORNamesByOwnerAddress dbC3b "A" = .ok [] ∧
      getTHORNamesByOwnerAddress dbC3b "B" = .ok ["n"]) := by
  refine ⟨?_, ?_, by decide, by decide⟩
  · intro db addr n ns hok hmem
    cases hb : db.byOwnerErr addr with
    | some e => simp [getTHORNamesByOwnerAddress, hb] at hok
    | none =>
      simp only [getTHORNamesByOwnerAddress, hb] at hok
      injection hok with hok
      subst hok
      have hf := (List.mem_filter.mp hmem).2
      cases hg : checkTHORName db n with
      | error e =>
        simp only [hg] at hf
        exact absurd hf (by simp)
      | ok t =>
        simp only [hg] at hf
        exact ⟨t, rfl, by simpa using hf⟩
  · intro db addr n ns hne hexp hok hmem
    cases hb : db.byOwnerErr addr with
    | some e => simp [getTHORNamesByOwnerAddress, hb] at hok
    | none =>
      simp only [getTHORNamesByOwnerAddress, hb] at hok
      injection hok with hok
      subst hok
      have hf := (List.mem_filter.mp hmem).2
      cases hc : db.checkErr n with
      | some e =>
        have hg : checkTHORName db n = .error e := by simp [checkTHORName, hc]
        simp only [hg] at hf
        exact absurd hf (by simp)
      | none =>
        have hg := checkTHORName_absent_of_expired db n hc hexp
        simp only [hg] at hf
        have : ("" : String) = addr := by simpa using hf
        exact hne this.symm

/-- C3, witness: the inclusion direction applied on `dbC3b` for the new
owner B, and the exclusion direction on an all-expired log. -/
theorem namesOwnedBy_owner_eq_witness :
    (∃ t, checkTHORName dbC3b "n" = .ok t ∧ t.owner = "B") ∧
    "n" ∉ ([] : List String) :=
  ⟨namesOwnedBy_owner_eq.1 dbC3b "B" "n" ["n"] (by decide) (by decide),
    namesOwnedBy_owner_eq.2.1 dbC4 "A" "n" [] (by decide) (by decide) (by decide)⟩

/-! ### C5: when the entry expansion is attached -/

/-- A single stale ETH row for name n, expired at height 500. -/
def dbC5 : DB :=
  { events :=
      [ { name := "n", chain := "ETH", address := "X", owner := "O",
          expire := 100, blockTimestamp := 1 } ]
    lastBlockHeight := 500
    checkErr := noErr, entriesErr := noErr, byAddressErr := noErr, byOwnerErr := noErr }

/-- C5, counterexample: the resolver finds no live record for n, the raw
per-chain snapshot of the log is non-empty, yet `GetTHORName` returns the
empty state with no entries: the expansion is NOT computed (the function
returns early), contradicting "always computed". -/
theorem expansion_skipped_cex :
    checkTHORName dbC5 "n" = .ok {} ∧
    expandEntries dbC5.events "n" = [{ chain := "ETH", address := "X" }] ∧
    getTHORName dbC5 "n" = .ok {} := by decide

/-- C5, amended: `GetTHORName` attaches the per-chain expansion only when
the resolver found a non-empty owner; when the resolved owner is empty it
returns early with no entries.  (The expansion itself, when computed, is
the raw per-chain snapshot, unfiltered by expiration — see the C7
theorem.) -/
theorem getTHORName_entries_policy (db : DB) (n : String) (t : THORName)
    (h : getTHORName db n = .ok t) :
    (t.owner = "" → t.entries = []) ∧
    (t.owner ≠ "" → t.entries = expandEntries db.events n) := by
  rcases getTHORName_entries_cases h with ⟨h1, h2⟩ | ⟨h1, h2⟩
  · exact ⟨fun _ => h2, fun hne => absurd h1 hne⟩
  · exact ⟨fun he => absurd he h1, fun _ => h2⟩

/-- Same log as `dbC5` but still live at height 500. -/
def dbC5w : DB :=
  { events :=
      [ { name := "n", chain := "ETH", address := "X", owner := "O",
          expire := 1000, blockTimestamp := 1 } ]
    lastBlockHeight := 500
    checkErr := noErr, entriesErr := noErr, byAddressErr := noErr, byOwnerErr := noErr }

/-- The result `GetTHORName` produces on `dbC5w`. -/
def tC5 : THORName :=
  { owner := "O", expire := 1000, entries := [{ chain := "ETH", address := "X" }] }

/-- C5, witness: the amended theorem applied to a live concrete log. -/
theorem getTHORName_entries_policy_witness :
    (tC5.owner = "" → tC5.entries = []) ∧
    (tC5.owner ≠ "" → tC5.entries = expandEntries dbC5w.events "n") :=
  getTHORName_entries_policy dbC5w "n" tC5 (by decide)

/-! ### C6: propagation and suppression of data-source errors -/

/-- A log with one candidate row, whose re-resolution query is made to fail
with error 7. -/
def dbC6 : DB :=
  { events :=
      [ { name := "n", chain := "C", address := "A", owner := "O",
          expire := 1000, blockTimestamp := 1 } ]
    lastBlockHeight := 500
    checkErr := fun m => if m == "n" then some 7 else none
    entriesErr := noErr, byAddressErr := noErr, byOwnerErr := noErr }

/-- C6, counterexample: a data-source error raised while re-resolving a
reverse-lookup candidate does NOT reach the caller of the reverse lookup —
both reverse lookups skip the failed candidate and return `ok` with the
empty set. -/
theorem candidateError_swallowed_cex :
    checkTHORName dbC6 "n" = .error 7 ∧
    getTHORNamesByAddress dbC6 "A" = .ok [] ∧
    getTHORNamesByOwnerAddress dbC6 "O" = .ok [] := by decide

/-- C6, amended: each operation propagates the error of its OWN queries
unchanged (the resolver's query; the combined lookup additionally the
entries query; each reverse lookup its candidate-enumeration query), but an
error raised while re-resolving a reverse-lookup candidate is suppressed:
the reverse lookups never fail once their own enumeration query
succeeded. -/
theorem dataSourceErrors_policy :
    (∀ (db : DB) (n : String) (e : Nat), db.checkErr n = some e →
        checkTHORName db n = .error e ∧ getTHORName db n = .error e) ∧
    (∀ (db : DB) (n : String) (e : Nat) (t : THORName),
        checkTHORName db n = .ok t → t.owner ≠ "" → db.entriesErr n = some e →
        getTHORName db n = .error e) ∧
    (∀ (db : DB) (a : String) (e : Nat), db.byAddressErr a = some e →
        getTHORNamesByAddress db a = .error e) ∧
    (∀ (db : DB) (a : String) (e : Nat), db.byOwnerErr a = some e →
        getTHORNamesByOwnerAddress db a = .error e) ∧
    (∀ (db : DB) (a : String), db.byAddressErr a = none →
        ∃ ns, getTHORNamesByAddress db a = .ok ns) ∧
    (∀ (db : DB) (a : String), db.byOwnerErr a = none →
        ∃ ns, getTHORNamesByOwnerAddress db a = .ok ns) := by
  refine ⟨?_, ?_, ?_, ?_, ?_, ?_⟩
  · intro db n e h
    have hc : checkTHORName db n = .error e := by simp [checkTHORName, h]
    exact ⟨hc, by simp [getTHORName, hc]⟩
  · intro db n e t hc hne he
    simp [getTHORName, hc, he, hne]
  · intro db a e h
    simp [getTHORNamesByAddress, h]
  · intro db a e h
    simp [getTHORNamesByOwnerAddress, h]
  · intro db a h
    refine ⟨(candidatesByAddress db.events a).filter (fun n =>
        match getTHORName db n with
        | .error _ => false
        | .ok t => t.entries.any (fun en => en.address == a)), ?_⟩
    simp [getTHORNamesByAddress, h]
  · intro db a h
    refine ⟨(candidatesByOwner db.events a).filter (fun n =>
        match checkTHORName db n with
        | .error _ => false
        | .ok t => t.owner == a), ?_⟩
    simp [getTHORNamesByOwnerAddress, h]

/-- C6, witness: error propagation of the resolver's own query and the
guaranteed success of a reverse lookup whose enumeration query succeeded,
on the concrete log `dbC6`. -/
theorem dataSourceErrors_policy_witness :
    (checkTHORName dbC6 "n" = .error 7 ∧ getTHORName dbC6 "n" = .error 7) ∧
    (∃ ns, getTHORNamesByAddress dbC6 "A" = .ok ns) :=
  ⟨dataSourceErrors_policy.1 dbC6 "n" 7 (by decide),
    dataSourceErrors_policy.2.2.2.2.1 dbC6 "A" (by decide)⟩

/-! ### C7: shape of the entry expansion for a live name -/

/-- C7: for a name resolved with a live (non-empty) owner, the entries are
one per chain that ever emitted an event for the name — the chain list is
strictly ascending (hence duplicate-free and sorted by chain identifier),
a chain appears iff some event for the name mentions it (no expiration
filter), and each entry's address is taken from an event of that chain with
the maximal `block_timestamp` for the `(name, chain)` pair. -/
theorem getTHORName_live_entries (db : DB) (n : String) (t : THORName)
    (h : getTHORName db n = .ok t) (hlive : t.owner ≠ "") :
    List.Pairwise (fun a b : String => a < b) (t.entries.map (fun en => en.chain)) ∧
    (∀ c, c ∈ t.entries.map (fun en => en.chain) ↔
        ∃ ev, ev ∈ db.events ∧ ev.name = n ∧ ev.chain = c) ∧
    (∀ en, en ∈ t.entries →
        ∃ ev, ev ∈ db.events ∧ ev.name = n ∧ ev.chain = en.chain ∧
          ev.address = en.address ∧
          ∀ ev', ev' ∈ db.events → ev'.name = n → ev'.chain = en.chain →
            ev'.blockTimestamp ≤ ev.blockTimestamp) := by
  have hent : t.entries = expandEntries db.events n := by
    rcases getTHORName_entries_cases h with ⟨h1, _⟩ | ⟨_, h2⟩
    · exact absurd h1 hlive
    · exact h2
  rw [hent]
  refine ⟨?_, ?_, ?_⟩
  · rw [expandEntries_map_chain]
    exact sorted_chainsOf
  · intro c
    rw [expandEntries_map_chain]
    exact mem_chainsOf
  · intro en hen
    exact mem_expandEntries hen

/-- The spec scenario log, for the C7 witness. -/
def dbC7 : DB :=
  { events :=
      [ { name := "alice", chain := "THOR", address := "thor1x", owner := "thor1x",
          expire := 1000, blockTimestamp := 1 }
      , { name := "alice", chain := "ETH", address := "0xAB", owner := "thor1x",
          expire := 1000, blockTimestamp := 2 } ]
    lastBlockHeight := 500
    checkErr := noErr, entriesErr := noErr, byAddressErr := noErr, byOwnerErr := noErr }

/-- The result `GetTHORName` produces on `dbC7`. -/
def tC7 : THORName :=
  { owner := "thor1x", expire := 1000,
    entries := [{ chain := "ETH", address := "0xAB" },
                { chain := "THOR", address := "thor1x" }] }

/-- C7, witness: the entries of the resolved scenario name are strictly
sorted by chain. -/
theorem getTHORName_live_entries_witness :
    List.Pairwise (fun a b : String => a < b) (tC7.entries.map (fun en => en.chain)) :=
  (getTHORName_live_entries dbC7 "alice" tC7 (by decide) (by decide)).1

/-! ### C8: broken candidates are dropped, not errored -/

/-- C8: once the candidate-enumeration query of `GetTHORNamesByAddress`
succeeded, the operation returns `ok`, and every candidate whose
re-resolution fails (resolver error) or finds no live root record (empty
owner, hence no entries) is excluded from the result set. -/
theorem namesBoundTo_skipsBroken (db : DB) (a : String)
    (h : db.byAddressErr a = none) :
    ∃ ns, getTHORNamesByAddress db a = .ok ns ∧
      ∀ n, ((∃ e, getTHORName db n = .error e) ∨
            (∃ t, getTHORName db n = .ok t ∧ t.owner = "")) → n ∉ ns := by
  refine ⟨(candidatesByAddress db.events a).filter (fun n =>
      match getTHORName db n with
      | .error _ => false
      | .ok t => t.entries.any (fun en => en.address == a)), ?_, ?_⟩
  · simp [getTHORNamesByAddress, h]
  · intro n hbad hmem
    have hpred := (List.mem_filter.mp hmem).2
    rcases hbad with ⟨e, he⟩ | ⟨t, ht, howner⟩
    · simp only [he] at hpred
      exact absurd hpred (by simp)
    · simp only [ht] at hpred
      have hentries : t.entries = [] := by
        rcases getTHORName_entries_cases ht with ⟨_, h2⟩ | ⟨hno, _⟩
        · exact h2
        · exact absurd howner hno
      rw [hentries] at hpred
      exact absurd hpred (by simp)

/-- A log with one candidate row for address A whose resolver query fails
with error 3. -/
def dbC8 : DB :=
  { events :=
      [ { name := "n", chain := "C", address := "A", owner := "O",
          expire := 1000, blockTimestamp := 1 } ]
    lastBlockHeight := 500
    checkErr := fun m => if m == "n" then some 3 else none
    entriesErr := noErr, byAddressErr := noErr, byOwnerErr := noErr }

/-- C8, witness: the theorem applied to `dbC8`, whose only candidate is
broken. -/
theorem namesBoundTo_skipsBroken_witness :
    ∃ ns, getTHORNamesByAddress dbC8 "A" = .ok ns ∧
      ∀ n, ((∃ e, getTHORName dbC8 n = .error e) ∨
            (∃ t, getTHORName dbC8 n = .ok t ∧ t.owner = "")) → n ∉ ns :=
  namesBoundTo_skipsBroken dbC8 "A" (by decide)

/-! ### C9: the four operations are pure reads -/

/-- Operation `CheckTHORName` as a unit of work over the data-source state: the
result together with the state left behind (its SELECT writes nothing). -/
def checkTHORNameCall (db : DB) (n : String) : Except Nat THORName × DB :=
  (checkTHORName db n, db)

/-- Operation `GetTHORName` as a unit of work over the data-source state. -/
def getTHORNameCall (db : DB) (n : String) : Except Nat THORName × DB :=
  (getTHORName db n, db)

/-- Operation `GetTHORNamesByAddress` as a unit of work over the data-source state. -/
def getTHORNamesByAddressCall (db : DB) (a : String) : Except Nat (List String) × DB :=
  (getTHORNamesByAddress db a, db)

/-- Operation `GetTHORNamesByOwnerAddress` as a unit of work over the data-source
state. -/
def getTHORNamesByOwnerAddressCall (db : DB) (a : String) :
    Except Nat (List String) × DB :=
  (getTHORNamesByOwnerAddress db a, db)

/-- C9: every operation leaves the data-source state unchanged, and calling
it a second time on the state left by the first call yields the identical
result — the four operations are idempotent pure reads. -/
theorem operations_readOnly_idempotent (db : DB) (n a o : String) :
    ((checkTHORNameCall db n).2 = db ∧
      (checkTHORNameCall (checkTHORNameCall db n).2 n).1 = (checkTHORNameCall db n).1) ∧
    ((getTHORNameCall db n).2 = db ∧
      (getTHORNameCall (getTHORNameCall db n).2 n).1 = (getTHORNameCall db n).1) ∧
    ((getTHORNamesByAddressCall db a).2 = db ∧
      (getTHORNamesByAddressCall (getTHORNamesByAddressCall db a).2 a).1 =
        (getTHORNamesByAddressCall db a).1) ∧
    ((getTHORNamesByOwnerAddressCall db o).2 = db ∧
      (getTHORNamesByOwnerAddressCall (getTHORNamesByOwnerAddressCall db o).2 o).1 =
        (getTHORNamesByOwnerAddressCall db o).1) :=
  ⟨⟨rfl, rfl⟩, ⟨rfl, rfl⟩, ⟨rfl, rfl⟩, ⟨rfl, rfl⟩⟩

/-! ### C10: the empty-address quirk of the by-owner lookup -/

/-- C10: querying `GetTHORNamesByOwnerAddress` with the empty string
includes every candidate name that has some event with an empty owner
field, resolves without error, and has no live event — the zero-value
owner compares equal to the queried empty address. -/
theorem namesOwnedBy_emptyOwner (db : DB) (n : String)
    (h0 : db.byOwnerErr "" = none) (h1 : db.checkErr n = none)
    (h2 : ∃ ev, ev ∈ db.events ∧ ev.name = n ∧ ev.owner = "")
    (h3 : ∀ ev ∈ db.events, ev.name = n → ev.expire ≤ db.lastBlockHeight) :
    ∃ ns, getTHORNamesByOwnerAddress db "" = .ok ns ∧ n ∈ ns := by
  refine ⟨(candidatesByOwner db.events "").filter (fun m =>
      match checkTHORName db m with
      | .error _ => false
      | .ok t => t.owner == ""), ?_, ?_⟩
  · simp [getTHORNamesByOwnerAddress, h0]
  · apply List.mem_filter.mpr
    constructor
    · rcases h2 with ⟨ev, hev, hname, howner⟩
      unfold candidatesByOwner
      rw [List.mem_dedup]
      exact List.mem_map.mpr ⟨ev, List.mem_filter.mpr ⟨hev, by simp [howner]⟩, hname⟩
    · have hcheck := checkTHORName_absent_of_expired db n h1 h3
      simp [hcheck]

/-- An expired record whose owner field is empty. -/
def dbC10 : DB :=
  { events :=
      [ { name := "n", chain := "THOR", address := "x", owner := "",
          expire := 100, blockTimestamp := 1 } ]
    lastBlockHeight := 500
    checkErr := noErr, entriesErr := noErr, byAddressErr := noErr, byOwnerErr := noErr }

/-- C10, witness: on `dbC10` the empty-address query returns the expired
candidate n. -/
theorem namesOwnedBy_emptyOwner_witness :
    ∃ ns, getTHORNamesByOwnerAddress dbC10 "" = .ok ns ∧ "n" ∈ ns :=
  namesOwnedBy_emptyOwner dbC10 "n" (by decide) (by decide) (by decide) (by decide)

end Midgard
